import Mathlib

/-!
Verification of the downpour range-download engine against its Go source.

The relevant parts of the repository are shallowly embedded below:

* `internal/downloader/downloader.go` — chunk sizing (`calculateChunkSize`),
  chunk geometry of `rangeDownloadWorker` and `InitRangeDownloadInfo`, the
  `OffsetWriter` adapter, the per-chunk retry loop, and the orchestration of
  `RangeDownload`.
* `checksum.go` — the `SupportedChecksum` table and `VerifyFile`.
* `main.go` — the checksum-argument validation phase.

Go `int64` arithmetic is modelled by `Int`.  Division appears solely on
positive operands (every division in the source is behind a positivity
guard), where Go's truncated division and Lean's `Int` division coincide.
Go strings are modelled as lists of characters.  Effects (HTTP transport,
the filesystem, the shared atomic counter) are modelled by explicit
outcome parameters and state passing, as documented on each definition.
-/

set_option maxHeartbeats 1000000

namespace Downpour

/-- Chunk sizing from `calculateChunkSize` (downloader.go): the quotient
`totalSize / (workerLimit * targetChunksPerWorker)` clamped between
`minChunkSize = 1 MiB` and `maxChunkSize = 64 MiB`, with the 64 MiB
fallback for non-positive sizes taken before any division happens. -/
def calculateChunkSize (totalSize : Int) (workerLimit : Int) : Int :=
  if totalSize ≤ 0 then 64 * 1024 * 1024
  else
    let chunkSize := totalSize / (workerLimit * 4)
    if chunkSize < 1 * 1024 * 1024 then 1 * 1024 * 1024
    else if chunkSize > 64 * 1024 * 1024 then 64 * 1024 * 1024
    else chunkSize

/-- Chunk size exactly as `InitRangeDownloadInfo` computes it, with its
hard-coded `workerLimit := 12`. -/
def initChunkSize (totalSize : Int) : Int := calculateChunkSize totalSize 12

/-- Start of chunk `i`'s byte range, from `rangeDownloadWorker`:
`startPos := int64(chunkIndex) * rdi.ChunkSize`. -/
def startPos (chunkSize i : Int) : Int := i * chunkSize

/-- Inclusive end of chunk `i`'s byte range, from `rangeDownloadWorker`:
`endPos := min((chunkIndex+1)*chunkSize - 1, totalSize - 1)`.  The source
routes this through `float64` and `math.Min`; following the claim it is
modelled as the exact integer minimum. -/
def endPos (totalSize chunkSize i : Int) : Int :=
  min ((i + 1) * chunkSize - 1) (totalSize - 1)

/-- Chunk count from `InitRangeDownloadInfo`:
`TotalChunks := ceil(totalSize / chunkSize)`.  The source routes this
through `float64` and `math.Ceil`; following the claim it is modelled as
the exact integer ceiling, here `(totalSize + chunkSize - 1) / chunkSize`
for the positive sizes the engine is constructed with. -/
def totalChunks (totalSize chunkSize : Int) : Int :=
  (totalSize + chunkSize - 1) / chunkSize

/-- Chunk count exactly as `InitRangeDownloadInfo` computes it. -/
def initTotalChunks (totalSize : Int) : Int :=
  totalChunks totalSize (initChunkSize totalSize)

/-- Membership of absolute byte position `b` in chunk `i`'s (inclusive)
byte range as the worker requests and writes it. -/
def inChunk (totalSize chunkSize i b : Int) : Prop :=
  startPos chunkSize i ≤ b ∧ b ≤ endPos totalSize chunkSize i

/-- Number of bytes in chunk `i`'s range. -/
def rangeLen (totalSize chunkSize i : Int) : Int :=
  endPos totalSize chunkSize i - startPos chunkSize i + 1

/-- State of one `OffsetWriter` (downloader.go): its per-writer file offset
together with the current value of the shared atomic `bytesWritten` counter
its pointer refers to. -/
structure OffsetWriter where
  offset : Int
  bytesWritten : Int
deriving DecidableEq

/-- `OffsetWriter.Write`, given the outcome `(nwrite, werr)` reported by the
underlying `file.WriteAt` call: on error it returns the reported count and
the (wrapped) error without touching the offset or the counter; on success
it advances the offset by `nwrite` and adds `nwrite` to the counter, then
returns `(nwrite, nil)`. -/
def OffsetWriter.write (ow : OffsetWriter) (nwrite : Int) (werr : Bool) :
    OffsetWriter × Int × Bool :=
  if werr then (ow, nwrite, true)
  else
    ({ offset := ow.offset + nwrite, bytesWritten := ow.bytesWritten + nwrite },
     nwrite, false)

/-- One positional write performed during a download run: the chunk it
belongs to, the byte count reported by `WriteAt`, and whether `WriteAt`
failed. -/
structure WriteEvent where
  chunk : Nat
  nwrite : Int
  werr : Bool
deriving DecidableEq

/-- The amount a write event adds to the shared counter: `nwrite` on the
success path of `OffsetWriter.Write`, nothing on its error path. -/
def eventDelta (e : WriteEvent) : Int := if e.werr then 0 else e.nwrite

/-- Effect of one `OffsetWriter.Write` call on the shared atomic counter;
the offset component is per-writer and irrelevant to the counter, so an
arbitrary `0` stands for it. -/
def counterStep (counter : Int) (e : WriteEvent) : Int :=
  ((OffsetWriter.mk 0 counter).write e.nwrite e.werr).1.bytesWritten

/-- Value of the shared atomic `bytesWritten` counter after a sequence of
write events, starting from its zero initial value. -/
def counterAfter (events : List WriteEvent) : Int :=
  events.foldl counterStep 0

/-- Bytes a sequence of write events adds to the counter on behalf of
chunk `i`. -/
def chunkBytes (events : List WriteEvent) (i : Nat) : Int :=
  ((events.filter (fun e => e.chunk == i)).map eventDelta).sum

/-- Outcome of one `rdi.Client.Do(req)` call inside the per-chunk retry
loop: whether the transport succeeded (`doErr == nil`, so `resp` is
non-nil) and the HTTP status code of the response. -/
structure Attempt where
  transportOk : Bool
  status : Nat
deriving DecidableEq

/-- The loop's success test: `doErr == nil && resp.StatusCode ==
http.StatusPartialContent` (status 206). -/
def attemptSuccess (a : Attempt) : Bool := a.transportOk && (a.status == 206)

/-- Observable outcome of the retry loop for one chunk: how many
`Client.Do` attempts were made, whether one succeeded, how many response
bodies the loop closed, and how many one-second sleeps it performed. -/
structure RetryResult where
  attemptsMade : Nat
  success : Bool
  bodiesClosed : Nat
  sleeps : Nat
deriving DecidableEq

/-- The `for range maxRetries` loop of `rangeDownloadWorker`, with `fuel`
remaining iterations and `k` attempts already consumed from the oracle of
transport outcomes: a successful attempt breaks immediately (its body is
not closed inside the loop); a failed attempt closes the response body when
the transport produced one (`if resp != nil`), sleeps one second, and
continues. -/
def retryAux (oracle : Nat → Attempt) : Nat → Nat → RetryResult
  | 0, _ => ⟨0, false, 0, 0⟩
  | fuel + 1, k =>
    let a := oracle k
    if attemptSuccess a then ⟨1, true, 0, 0⟩
    else
      let r := retryAux oracle fuel (k + 1)
      ⟨r.attemptsMade + 1, r.success,
       r.bodiesClosed + (if a.transportOk then 1 else 0), r.sleeps + 1⟩

/-- The chunk retry loop with the source's `maxRetries = 5`. -/
def retryLoop (oracle : Nat → Attempt) : RetryResult := retryAux oracle 5 0

/-- Worker behaviour after the loop: `if !success { onError(...); continue }`
— the chunk is reported through the error callback exactly when no attempt
succeeded. -/
def workerReportsAbandoned (oracle : Nat → Attempt) : Bool :=
  !(retryLoop oracle).success

/-- How the worker leaves one chunk: completed; abandoned because all
retries failed; or failed while streaming the response body. -/
inductive ChunkResult
  | completed
  | retriesExhausted
  | streamFailed
deriving DecidableEq

/-- Per-chunk processing in `rangeDownloadWorker`: the retry loop, then —
only on success — a single `io.CopyBuffer` streaming of the body, whose
error is reported immediately (`onError(copyErr); continue`) with no
further request attempts.  `streamErr` is whether that single copy fails. -/
def processChunk (oracle : Nat → Attempt) (streamErr : Bool) : ChunkResult :=
  if !(retryLoop oracle).success then ChunkResult.retriesExhausted
  else if streamErr then ChunkResult.streamFailed
  else ChunkResult.completed

/-- Result of `VerifyFile` (checksum.go): success, a failure to open or
read the file, or a checksum mismatch carrying the expected and computed
digest strings. -/
inductive VerifyResult
  | ok
  | ioFailure
  | mismatch (expected computed : List Char)
deriving DecidableEq

/-- One entry of the `SupportedChecksum` table (checksum.go): the expected
hex-digest length and the digest function.  The crypto hash constructors
are foreign primitives, so the digest of a full byte stream is kept as an
abstract function. -/
structure ChecksumAlgo where
  ChecksumLen : Nat
  NewHash : List Nat → List Nat

/-- Lowercase hexadecimal digit for a nibble, as `encoding/hex` emits:
`0`–`9` then `a`–`f`. -/
def hexDigit (n : Nat) : Char :=
  if n < 10 then Char.ofNat (48 + n) else Char.ofNat (87 + n)

/-- `hex.EncodeToString` over a byte sequence (bytes reduced modulo 256,
the byte width): two lowercase hex digits per byte, high nibble first. -/
def hexEncode (bs : List Nat) : List Char :=
  (bs.map (fun b => [hexDigit (b % 256 / 16), hexDigit (b % 16)])).flatten

/-- `VerifyFile` (checksum.go).  The filesystem is modelled by the file's
byte contents, `none` when the open or the streaming read fails: on `none`
an I/O failure is returned; otherwise the contents are hashed, hex-encoded,
and compared against the expected string, a mismatch reporting both
digests. -/
def VerifyFile (fileContents : Option (List Nat)) (expectedHash : List Char)
    (algoInfo : ChecksumAlgo) : VerifyResult :=
  match fileContents with
  | none => VerifyResult.ioFailure
  | some data =>
    let calculatedHash := hexEncode (algoInfo.NewHash data)
    if calculatedHash ≠ expectedHash then
      VerifyResult.mismatch expectedHash calculatedHash
    else
      VerifyResult.ok

/-- The one-shot signals `RangeDownload` emits through its callbacks: how
often `onError` fired, and whether `onVerify` and `onDone` fired. -/
structure RunSignals where
  errorCalls : Nat
  verifyCalled : Bool
  doneCalled : Bool
deriving DecidableEq

/-- Orchestration of `RangeDownload` (downloader.go) over the per-chunk
outcomes of the drained pool: every non-completed chunk produced one
`onError` call from its worker, which then continued; after `Wg.Wait()`
and the file close, a configured checksum triggers `onVerify` and
`VerifyFile`, whose failure is reported through `onError` and suppresses
`onDone`; with no checksum `onDone` is signalled unconditionally. -/
def RangeDownload (results : List ChunkResult)
    (checksum : Option (List Char × ChecksumAlgo))
    (fileContents : Option (List Nat)) : RunSignals :=
  let errs := (results.filter (fun r => !(r == ChunkResult.completed))).length
  match checksum with
  | none => ⟨errs, false, true⟩
  | some (expectedHash, algo) =>
    match VerifyFile fileContents expectedHash algo with
    | VerifyResult.ok => ⟨errs, true, true⟩
    | _ => ⟨errs + 1, true, false⟩

/-- The `ChecksumLen` column of the `SupportedChecksum` map (checksum.go);
`none` models a key that is absent from the map. -/
def SupportedChecksumLen (algo : List Char) : Option Nat :=
  if algo = ['m', 'd', '5'] then some 32
  else if algo = ['s', 'h', 'a', '1'] then some 40
  else if algo = ['s', 'h', 'a', '2', '5', '6'] then some 64
  else if algo = ['s', 'h', 'a', '3', '8', '4'] then some 96
  else if algo = ['s', 'h', 'a', '5', '1', '2'] then some 128
  else none

/-- ASCII lowercasing of one character, modelling `strings.ToLower` on the
ASCII algorithm names the CLI deals with. -/
def toLowerChar (c : Char) : Char :=
  if 'A' ≤ c ∧ c ≤ 'Z' then Char.ofNat (c.toNat + 32) else c

/-- `strings.ToLower` over the characters of an ASCII string. -/
def toLowerStr (s : List Char) : List Char := s.map toLowerChar

/-- What the checksum phase of `main` leaves behind: the number of
`ErrorMsg` sends, whether `rdi.Checksum` was set, and whether the download
goroutine is subsequently launched. -/
structure CliRun where
  errorsSent : Nat
  checksumConfigured : Bool
  downloadLaunched : Bool
deriving DecidableEq

/-- The checksum-argument phase of `main` followed by the launch: when both
`-algorithm` and `-checksum` are non-empty, an unsupported (lowercased)
name sends an `ErrorMsg` but does not return, the zero-value table entry
(`ChecksumLen = 0`) then feeds the length check, a wrong-length hash sends
another `ErrorMsg` and also does not return, `rdi.Checksum` is set
regardless, and in every path the code falls through to launching the
download goroutine. -/
def mainChecksumPhase (algorithm expectedHash : List Char) : CliRun :=
  if algorithm ≠ [] ∧ expectedHash ≠ [] then
    let algo := toLowerStr algorithm
    let lookup := SupportedChecksumLen algo
    let existsErr : Nat := if lookup = none then 1 else 0
    let checksumLen := lookup.getD 0
    let lengthErr : Nat := if expectedHash.length ≠ checksumLen then 1 else 0
    { errorsSent := existsErr + lengthErr,
      checksumConfigured := true, downloadLaunched := true }
  else
    { errorsSent := 0, checksumConfigured := false, downloadLaunched := true }

/-- `strings.LastIndex(filename, ".")` from `InitRangeDownloadInfo`, over
the characters of the filename: the index of the last dot, `-1` when there
is none. -/
def lastDotIndex : List Char → Int
  | [] => -1
  | c :: cs =>
    let r := lastDotIndex cs
    if 0 ≤ r then r + 1
    else if c = '.' then 0 else -1

/-- The directory name `InitRangeDownloadInfo` derives when tracing or
telemetry is enabled: `filename[:strings.LastIndex(filename, ".")+1]`. -/
def dirNameOf (filename : List Char) : List Char :=
  filename.take (lastDotIndex filename + 1).toNat

/-- Directory name and output path from `InitRangeDownloadInfo`: with trace
or telemetry enabled the directory is created and the output file moves
inside it (`fmt.Sprintf("%s/%s", dirName, filename)`); otherwise `dirName`
stays empty and the filename is untouched. -/
def initPaths (filename : List Char) (enableTrace enableTelemetry : Bool) :
    List Char × List Char :=
  if enableTrace || enableTelemetry then
    let dirName := dirNameOf filename
    (dirName, dirName ++ '/' :: filename)
  else ([], filename)

/-- Modelled from the spec: the claim's "<basename-without-extension>" —
the output filename with its extension (the final dot and everything after
it) removed; a name without a dot is kept whole.  This definition follows
the claim's words and exists only to be compared with the source-derived
`dirNameOf`. -/
def basenameWithoutExt (filename : List Char) : List Char :=
  if 0 ≤ lastDotIndex filename then
    filename.take (lastDotIndex filename).toNat
  else filename

/-! ## Helper lemmas -/

/-- Whatever the size, the computed chunk size is at least one byte (in
fact at least 1 MiB): every branch of `calculateChunkSize` returns a value
bounded below by 1 MiB. -/
theorem one_le_initChunkSize (totalSize : Int) : 1 ≤ initChunkSize totalSize := by
  unfold initChunkSize calculateChunkSize
  dsimp only
  split_ifs <;> omega

/-- Exact-ceiling characterisation of `totalChunks` for positive sizes and
chunk sizes: it is the unique `N` with `(N - 1) * c < T ≤ N * c`. -/
theorem totalChunks_eq (T c : Int) (hT : 1 ≤ T) (hc : 1 ≤ c) :
    totalChunks T c = (T - 1) / c + 1 := by
  unfold totalChunks
  have h : T + c - 1 = (T - 1) + 1 * c := by ring
  rw [h, Int.add_mul_ediv_right _ _ (by omega : c ≠ 0)]

/-- Each chunk index below `totalChunks` starts strictly inside the file. -/
theorem chunk_mul_lt (T c i : Int) (hT : 1 ≤ T) (hc : 1 ≤ c)
    (hi : i < totalChunks T c) : i * c ≤ T - 1 := by
  rw [totalChunks_eq T c hT hc] at hi
  have h1 : i ≤ (T - 1) / c := by omega
  have h2 : i * c ≤ (T - 1) / c * c :=
    mul_le_mul_of_nonneg_right h1 (by omega)
  have h3 : (T - 1) / c * c ≤ T - 1 := by
    have := Int.ediv_add_emod (T - 1) c
    have := Int.emod_nonneg (T - 1) (by omega : c ≠ 0)
    nlinarith [Int.ediv_add_emod (T - 1) c]
  omega

/-- The chunk ranges reach the end of the file: `totalChunks * c ≥ T`. -/
theorem totalChunks_mul_ge (T c : Int) (hT : 1 ≤ T) (hc : 1 ≤ c) :
    T ≤ totalChunks T c * c := by
  unfold totalChunks
  have hc0 : c ≠ 0 := by omega
  have hdm := Int.ediv_add_emod (T + c - 1) c
  have hm1 := Int.emod_nonneg (T + c - 1) hc0
  have hm2 := Int.emod_lt_of_pos (T + c - 1) (by omega : 0 < c)
  nlinarith [hdm, hm1, hm2]

/-- A byte can lie in at most one chunk range: membership pins the chunk
index to the byte's quotient by the chunk size. -/
theorem inChunk_index_eq (T c i b : Int) (hc : 1 ≤ c)
    (h : inChunk T c i b) : i = b / c := by
  obtain ⟨h1, h2⟩ := h
  have hc0 : (0 : Int) < c := by omega
  have hb2 : b < (i + 1) * c := by
    have := min_le_left ((i + 1) * c - 1) (T - 1)
    unfold endPos at h2
    omega
  have ha : i ≤ b / c := (Int.le_ediv_iff_mul_le hc0).mpr (by
    unfold startPos at h1; omega)
  have hb : b / c < i + 1 := (Int.ediv_lt_iff_lt_mul hc0).mpr hb2
  omega

/-- Every byte of the file lies in the chunk indexed by its quotient. -/
theorem mem_own_chunk (T c b : Int) (hT : 1 ≤ T) (hc : 1 ≤ c)
    (hb0 : 0 ≤ b) (hbT : b < T) :
    0 ≤ b / c ∧ b / c < totalChunks T c ∧ inChunk T c (b / c) b := by
  have hc0 : (0 : Int) < c := by omega
  have hq0 : 0 ≤ b / c := Int.ediv_nonneg hb0 (by omega)
  have hlow : b / c * c ≤ b := (Int.le_ediv_iff_mul_le hc0).mp le_rfl
  have hhigh : b < (b / c + 1) * c :=
    (Int.ediv_lt_iff_lt_mul hc0).mp (lt_add_one (b / c))
  refine ⟨hq0, ?_, ⟨by unfold startPos; omega, ?_⟩⟩
  · rw [totalChunks_eq T c hT hc]
    have : b / c ≤ (T - 1) / c := Int.ediv_le_ediv hc0 (by omega)
    omega
  · unfold endPos
    have := le_min (show b ≤ (b / c + 1) * c - 1 by omega)
      (show b ≤ T - 1 by omega)
    exact this

/-! ## C8 — chunk size is a clamp -/

/-- C8: for every positive `totalSize` (with `workerLimit = 12`) the chunk
size equals `clamp(totalSize / 48, 1 MiB, 64 MiB)` — written as
`max (1 MiB) (min (totalSize / (12*4)) (64 MiB))` — and in particular lies
in `[1 MiB, 64 MiB]`; for `totalSize ≤ 0` the fallback 64 MiB is
returned. -/
theorem calculateChunkSize_clamp (totalSize : Int) :
    (0 < totalSize →
      calculateChunkSize totalSize 12 =
        max (1024 * 1024) (min (totalSize / (12 * 4)) (64 * 1024 * 1024)) ∧
      1024 * 1024 ≤ calculateChunkSize totalSize 12 ∧
      calculateChunkSize totalSize 12 ≤ 64 * 1024 * 1024) ∧
    (totalSize ≤ 0 → calculateChunkSize totalSize 12 = 64 * 1024 * 1024) := by
  unfold calculateChunkSize
  constructor
  · intro h
    rw [if_neg (by omega)]
    simp only [max_def, min_def]
    split_ifs <;> omega
  · intro h
    rw [if_pos (by omega)]

/-- Witness for C8 at the concrete sizes 100 (clamped up to 1 MiB) and
`-5` (defensive fallback). -/
theorem calculateChunkSize_clamp_witness :
    (calculateChunkSize 100 12 =
        max (1024 * 1024) (min ((100 : Int) / (12 * 4)) (64 * 1024 * 1024)) ∧
      1024 * 1024 ≤ calculateChunkSize 100 12 ∧
      calculateChunkSize 100 12 ≤ 64 * 1024 * 1024) ∧
    calculateChunkSize (-5) 12 = 64 * 1024 * 1024 :=
  ⟨(calculateChunkSize_clamp 100).1 (by decide),
   (calculateChunkSize_clamp (-5)).2 (by decide)⟩

/-! ## C1 — the chunk ranges partition the file -/

/-- C1: for every positive `totalSize`, with the chunk size computed by
`InitRangeDownloadInfo`, the byte ranges the workers request and write —
`[startPos i, endPos i]` for `i ∈ [0, totalChunks)` — are pairwise
disjoint, and their union is exactly the interval `[0, totalSize)`. -/
theorem chunk_ranges_partition (totalSize : Int) (hT : 0 < totalSize) :
    (∀ i j b : Int, i ≠ j →
      ¬(inChunk totalSize (initChunkSize totalSize) i b ∧
        inChunk totalSize (initChunkSize totalSize) j b)) ∧
    (∀ b : Int, (0 ≤ b ∧ b < totalSize) ↔
      ∃ i, 0 ≤ i ∧ i < initTotalChunks totalSize ∧
        inChunk totalSize (initChunkSize totalSize) i b) := by
  have hc : 1 ≤ initChunkSize totalSize := one_le_initChunkSize totalSize
  constructor
  · rintro i j b hij ⟨hi, hj⟩
    exact hij ((inChunk_index_eq _ _ _ _ hc hi).trans
      (inChunk_index_eq _ _ _ _ hc hj).symm)
  · intro b
    constructor
    · rintro ⟨hb0, hbT⟩
      obtain ⟨h1, h2, h3⟩ :=
        mem_own_chunk totalSize (initChunkSize totalSize) b (by omega) hc hb0 hbT
      exact ⟨b / initChunkSize totalSize, h1, h2, h3⟩
    · rintro ⟨i, hi0, hiN, hlo, hhi⟩
      have hbT : b ≤ totalSize - 1 := by
        unfold endPos at hhi
        have := min_le_right ((i + 1) * initChunkSize totalSize - 1) (totalSize - 1)
        omega
      have hb0 : 0 ≤ b := by
        unfold startPos at hlo
        nlinarith
      exact ⟨hb0, by omega⟩

/-- Witness for C1 at `totalSize = 1000` (a single 1 MiB chunk). -/
theorem chunk_ranges_partition_witness :
    (∀ i j b : Int, i ≠ j →
      ¬(inChunk 1000 (initChunkSize 1000) i b ∧
        inChunk 1000 (initChunkSize 1000) j b)) ∧
    (∀ b : Int, (0 ≤ b ∧ b < 1000) ↔
      ∃ i, 0 ≤ i ∧ i < initTotalChunks 1000 ∧
        inChunk 1000 (initChunkSize 1000) i b) :=
  chunk_ranges_partition 1000 (by decide)

/-! ## C10 — the error path of OffsetWriter.Write changes nothing -/

/-- C10: when the underlying `WriteAt` fails, `OffsetWriter.Write` passes
the reported count and the error through and leaves the writer's offset and
the shared counter untouched — even when the reported partial-write count
is positive. -/
theorem offsetWriter_error_frame (ow : OffsetWriter) (nwrite : Int)
    (hpos : 0 < nwrite) :
    (ow.write nwrite true).1.offset = ow.offset ∧
    (ow.write nwrite true).1.bytesWritten = ow.bytesWritten ∧
    (ow.write nwrite true).2.1 = nwrite ∧
    (ow.write nwrite true).2.2 = true := by
  simp [OffsetWriter.write]

/-- Witness for C10: a failed write reporting 3 bytes at offset 5 leaves
the writer at offset 5 with counter 7. -/
theorem offsetWriter_error_frame_witness :
    ((OffsetWriter.mk 5 7).write 3 true).1.offset = (OffsetWriter.mk 5 7).offset ∧
    ((OffsetWriter.mk 5 7).write 3 true).1.bytesWritten = (OffsetWriter.mk 5 7).bytesWritten ∧
    ((OffsetWriter.mk 5 7).write 3 true).2.1 = 3 ∧
    ((OffsetWriter.mk 5 7).write 3 true).2.2 = true :=
  offsetWriter_error_frame (OffsetWriter.mk 5 7) 3 (by decide)

/-! ## Retry-loop lemmas -/

/-- The loop makes at most `fuel` attempts. -/
theorem retryAux_attempts_le (oracle : Nat → Attempt) :
    ∀ fuel k, (retryAux oracle fuel k).attemptsMade ≤ fuel := by
  intro fuel
  induction fuel with
  | zero => intro k; simp [retryAux]
  | succ f ih =>
    intro k
    unfold retryAux
    dsimp only
    by_cases h : attemptSuccess (oracle k) = true
    · rw [if_pos h]
      simp
    · rw [if_neg h]
      dsimp only
      have := ih (k + 1)
      omega

/-- The loop succeeds exactly when one of the next `fuel` attempts
succeeds. -/
theorem retryAux_success_iff (oracle : Nat → Attempt) :
    ∀ fuel k, (retryAux oracle fuel k).success = true ↔
      ∃ j, j < fuel ∧ attemptSuccess (oracle (k + j)) = true := by
  intro fuel
  induction fuel with
  | zero =>
    intro k
    simp [retryAux]
  | succ f ih =>
    intro k
    unfold retryAux
    dsimp only
    by_cases h : attemptSuccess (oracle k) = true
    · rw [if_pos h]
      simp only [true_iff]
      exact ⟨0, by omega, by simpa using h⟩
    · rw [if_neg h]
      dsimp only
      rw [ih (k + 1)]
      constructor
      · rintro ⟨j, hj, hs⟩
        refine ⟨j + 1, by omega, ?_⟩
        rw [show k + (j + 1) = k + 1 + j by omega]
        exact hs
      · rintro ⟨j, hj, hs⟩
        match j with
        | 0 => exact absurd (by simpa using hs) (by simpa using h)
        | j' + 1 =>
          refine ⟨j', by omega, ?_⟩
          rw [show k + 1 + j' = k + (j' + 1) by omega]
          exact hs

/-- Every failed attempt and only the failed attempts sleep one second. -/
theorem retryAux_sleeps (oracle : Nat → Attempt) :
    ∀ fuel k, (retryAux oracle fuel k).sleeps +
      (if (retryAux oracle fuel k).success then 1 else 0) =
      (retryAux oracle fuel k).attemptsMade := by
  intro fuel
  induction fuel with
  | zero => intro k; simp [retryAux]
  | succ f ih =>
    intro k
    unfold retryAux
    dsimp only
    by_cases h : attemptSuccess (oracle k) = true
    · rw [if_pos h]
      simp
    · rw [if_neg h]
      dsimp only
      have := ih (k + 1)
      by_cases hs : (retryAux oracle f (k + 1)).success = true <;>
        simp only [hs] at this ⊢ <;> simp at this ⊢ <;> omega

/-- The loop closes one response body per failed attempt that produced a
response: the failed attempts are indices `k`, `k+1`, …, one per sleep. -/
theorem retryAux_closes (oracle : Nat → Attempt) :
    ∀ fuel k, (retryAux oracle fuel k).bodiesClosed =
      (List.range (retryAux oracle fuel k).sleeps).countP
        (fun j => (oracle (k + j)).transportOk) := by
  intro fuel
  induction fuel with
  | zero => intro k; simp [retryAux]
  | succ f ih =>
    intro k
    unfold retryAux
    dsimp only
    by_cases h : attemptSuccess (oracle k) = true
    · rw [if_pos h]
      simp
    · rw [if_neg h]
      dsimp only
      rw [ih (k + 1), List.range_succ_eq_map, List.countP_cons, List.countP_map]
      have hfun : ((fun j => (oracle (k + j)).transportOk) ∘ Nat.succ) =
          (fun j => (oracle (k + 1 + j)).transportOk) := by
        funext j
        have hk : k + Nat.succ j = k + 1 + j := by omega
        simp [Function.comp, hk]
      rw [hfun]
      simp only [Nat.add_zero]

/-! ## C4 — per-chunk retry behaviour -/

/-- C4: for each chunk the worker makes at most 5 request attempts; the
loop succeeds exactly when one of the first 5 attempts has a working
transport and status 206; every failed attempt — and only the failed
attempts — is followed by a one-second sleep before the next attempt; the
bodies closed inside the loop are exactly those of failed attempts whose
transport produced a response; and the chunk is reported through the error
callback exactly when all 5 attempts fail. -/
theorem retryLoop_spec (oracle : Nat → Attempt) :
    (retryLoop oracle).attemptsMade ≤ 5 ∧
    ((retryLoop oracle).success = true ↔
      ∃ k, k < 5 ∧ (oracle k).transportOk = true ∧ (oracle k).status = 206) ∧
    (retryLoop oracle).sleeps +
      (if (retryLoop oracle).success then 1 else 0) =
      (retryLoop oracle).attemptsMade ∧
    (retryLoop oracle).bodiesClosed =
      (List.range (retryLoop oracle).sleeps).countP
        (fun k => (oracle k).transportOk) ∧
    (workerReportsAbandoned oracle = true ↔
      ∀ k, k < 5 → attemptSuccess (oracle k) = false) := by
  refine ⟨retryAux_attempts_le oracle 5 0, ?_, retryAux_sleeps oracle 5 0, ?_, ?_⟩
  · rw [retryLoop, retryAux_success_iff oracle 5 0]
    simp only [Nat.zero_add]
    constructor
    · rintro ⟨j, hj, hs⟩
      simp only [attemptSuccess, Bool.and_eq_true, beq_iff_eq] at hs
      exact ⟨j, hj, by simpa using hs.1, hs.2⟩
    · rintro ⟨k, hk, h1, h2⟩
      exact ⟨k, hk, by simp [attemptSuccess, h1, h2]⟩
  · have := retryAux_closes oracle 5 0
    simpa using this
  · unfold workerReportsAbandoned
    rw [Bool.not_eq_true', ← Bool.not_eq_true]
    rw [retryLoop, retryAux_success_iff oracle 5 0]
    push_neg
    constructor
    · intro h k hk
      have := h k hk
      simpa using this
    · intro h j hj
      simpa using h j hj

/-! ## C5 — streaming errors are not retried -/

/-- C5 counterexample: the claimed state machine implies that a chunk the
worker fails to deliver has exhausted all 5 attempts.  The code refutes
this: a chunk whose very first attempt returns 206 but whose body
streaming fails is reported failed after exactly one attempt — the stream
error is not retried. -/
theorem streamError_retried_counterexample :
    ¬(∀ (oracle : Nat → Attempt) (streamErr : Bool),
        processChunk oracle streamErr ≠ ChunkResult.completed →
        (retryLoop oracle).attemptsMade = 5) := by
  intro h
  have h1 : processChunk (fun _ => ⟨true, 206⟩) true = ChunkResult.streamFailed := by
    decide
  have h2 : (retryLoop (fun _ => ⟨true, 206⟩)).attemptsMade = 1 := by decide
  have := h (fun _ => ⟨true, 206⟩) true (by rw [h1]; decide)
  omega

/-- C5 amended: a streaming error is terminal for its chunk and is not
retried — the worker reports it through the error callback at once and
moves on; only transport failures and non-206 responses are retried, within
the 5-attempt budget.  The chunk completes exactly when the request phase
succeeded and the single streaming pass did not fail; it is abandoned for
exhausted retries exactly when the request phase failed. -/
theorem streamError_immediate (oracle : Nat → Attempt) (streamErr : Bool) :
    (processChunk oracle streamErr = ChunkResult.streamFailed ↔
      (retryLoop oracle).success = true ∧ streamErr = true) ∧
    (processChunk oracle streamErr = ChunkResult.retriesExhausted ↔
      (retryLoop oracle).success = false) ∧
    (processChunk oracle streamErr = ChunkResult.completed ↔
      (retryLoop oracle).success = true ∧ streamErr = false) ∧
    (retryLoop oracle).attemptsMade ≤ 5 := by
  refine ⟨?_, ?_, ?_, retryAux_attempts_le oracle 5 0⟩ <;>
    unfold processChunk <;>
    cases h : (retryLoop oracle).success <;>
    cases streamErr <;> simp [h]

/-! ## C2 — an abandoned chunk still ends in onDone -/

/-- C2 (code bug): the worker reports an exhausted chunk and continues, and
`RangeDownload` signals `onDone` unconditionally once the pool drains when
no checksum is configured — for every outcome list; concretely, a run of
two chunks of which one was abandoned fires one `onError` and still fires
`onDone` without any verification. -/
theorem chunkAbandoned_still_done :
    (∀ (results : List ChunkResult) (fileContents : Option (List Nat)),
      (RangeDownload results none fileContents).doneCalled = true) ∧
    RangeDownload [ChunkResult.completed, ChunkResult.retriesExhausted]
      none none = ⟨1, false, true⟩ := by
  constructor
  · intro results fileContents
    rfl
  · rfl

/-! ## Counter lemmas -/

/-- One write event moves the shared counter by its delta. -/
theorem counterStep_eq (counter : Int) (e : WriteEvent) :
    counterStep counter e = counter + eventDelta e := by
  unfold counterStep OffsetWriter.write eventDelta
  by_cases h : e.werr = true <;> simp [h]

/-- Folding the counter over events sums their deltas. -/
theorem foldl_counterStep (l : List WriteEvent) :
    ∀ a : Int, l.foldl counterStep a = a + (l.map eventDelta).sum := by
  induction l with
  | nil => intro a; simp
  | cons e es ih =>
    intro a
    simp only [List.foldl_cons, List.map_cons, List.sum_cons, counterStep_eq, ih]
    ring

/-- The counter after a run is the sum of the event deltas. -/
theorem counterAfter_eq_sum (events : List WriteEvent) :
    counterAfter events = (events.map eventDelta).sum := by
  unfold counterAfter
  rw [foldl_counterStep]
  simp

/-- A write whose reported count is non-negative never decreases the
counter. -/
theorem eventDelta_nonneg (e : WriteEvent) (h : 0 ≤ e.nwrite) :
    0 ≤ eventDelta e := by
  unfold eventDelta
  by_cases hw : e.werr = true <;> simp [hw, h]

/-- Prepending an event adds its delta to its own chunk's account. -/
theorem chunkBytes_cons (e : WriteEvent) (es : List WriteEvent) (i : Nat) :
    chunkBytes (e :: es) i =
      (if e.chunk = i then eventDelta e else 0) + chunkBytes es i := by
  unfold chunkBytes
  by_cases h : e.chunk = i
  · simp [List.filter_cons, h]
  · simp [List.filter_cons, h]

/-- Grouping: the total of all deltas is the sum of the per-chunk
accounts, as long as every event belongs to a chunk below `N`. -/
theorem sum_chunkBytes (N : Nat) :
    ∀ events : List WriteEvent, (∀ e ∈ events, e.chunk < N) →
      (events.map eventDelta).sum =
        Finset.sum (Finset.range N) (fun i => chunkBytes events i) := by
  intro events
  induction events with
  | nil => intro _; simp [chunkBytes]
  | cons e es ih =>
    intro h
    have he : e.chunk < N := h e (by simp)
    have hes : ∀ x ∈ es, x.chunk < N := fun x hx => h x (by simp [hx])
    simp only [List.map_cons, List.sum_cons, ih hes]
    rw [Finset.sum_congr rfl (fun i _ => chunkBytes_cons e es i),
      Finset.sum_add_distrib,
      Finset.sum_ite_eq (Finset.range N) e.chunk (fun _ => eventDelta e)]
    simp [Finset.mem_range.mpr he]

/-- For an in-range chunk the range length telescopes:
`rangeLen i = min((i+1)c, T) − i·c`. -/
theorem rangeLen_eq (T c : Int) (i : Int) (hi : i < totalChunks T c)
    (hT : 1 ≤ T) (hc : 1 ≤ c) :
    rangeLen T c i = min ((i + 1) * c) T - i * c := by
  unfold rangeLen endPos startPos
  rcases le_total ((i + 1) * c) T with h | h
  · rw [min_eq_left (by omega : (i + 1) * c - 1 ≤ T - 1), min_eq_left h]
    ring
  · rw [min_eq_right (by omega : T - 1 ≤ (i + 1) * c - 1), min_eq_right h]
    ring

/-- The chunk range lengths add up to exactly the file size. -/
theorem sum_rangeLen (T c : Int) (hT : 1 ≤ T) (hc : 1 ≤ c) :
    Finset.sum (Finset.range (totalChunks T c).toNat)
      (fun i => rangeLen T c (i : Int)) = T := by
  have hNpos : 0 < totalChunks T c := by
    rw [totalChunks_eq T c hT hc]
    have := Int.ediv_nonneg (show (0 : Int) ≤ T - 1 by omega)
      (show (0 : Int) ≤ c by omega)
    omega
  have hNcast : (((totalChunks T c).toNat : Nat) : Int) = totalChunks T c :=
    Int.toNat_of_nonneg (by omega)
  have hstep : ∀ i ∈ Finset.range (totalChunks T c).toNat,
      rangeLen T c (i : Int) =
        (fun j : Nat => min ((j : Int) * c) T) (i + 1) -
        (fun j : Nat => min ((j : Int) * c) T) i := by
    intro i hi
    have hiN : (i : Int) < totalChunks T c := by
      rw [← hNcast]
      exact_mod_cast Finset.mem_range.mp hi
    have h1 : min ((i : Int) * c) T = (i : Int) * c :=
      min_eq_left (by have := chunk_mul_lt T c i hT hc hiN; omega)
    rw [rangeLen_eq T c i hiN hT hc]
    dsimp only
    rw [h1]
    push_cast
    ring_nf
  rw [Finset.sum_congr rfl hstep,
    Finset.sum_range_sub (fun j : Nat => min ((j : Int) * c) T)]
  have hNc : T ≤ (((totalChunks T c).toNat : Nat) : Int) * c := by
    rw [hNcast]
    exact totalChunks_mul_ge T c hT hc
  rw [min_eq_right hNc]
  simp
  omega

/-! ## C3 — the byte counter is monotone, bounded, and exact on success -/

/-- C3: over any execution trace of positional writes whose per-chunk
totals respect the chunk ranges, the shared `bytesWritten` counter is
monotonically non-decreasing step by step (every update adds the
non-negative reported count, and error-path writes add nothing), it never
exceeds `totalSize` at any prefix of the run, and when every chunk has
delivered exactly its range the final value is exactly `totalSize`. -/
theorem bytesWritten_monotone_bounded (totalSize : Int)
    (events : List WriteEvent) (hT : 0 < totalSize)
    (hwf : ∀ e ∈ events,
      e.chunk < (initTotalChunks totalSize).toNat ∧ 0 ≤ e.nwrite)
    (hbound : ∀ i : Nat, i < (initTotalChunks totalSize).toNat →
      chunkBytes events i ≤ rangeLen totalSize (initChunkSize totalSize) (i : Int)) :
    (∀ k : Nat, counterAfter (events.take k) ≤ counterAfter (events.take (k + 1))) ∧
    (∀ k : Nat, counterAfter (events.take k) ≤ totalSize) ∧
    ((∀ i : Nat, i < (initTotalChunks totalSize).toNat →
        chunkBytes events i = rangeLen totalSize (initChunkSize totalSize) (i : Int)) →
      counterAfter events = totalSize) := by
  have hc : 1 ≤ initChunkSize totalSize := one_le_initChunkSize totalSize
  have hgroup := sum_chunkBytes (initTotalChunks totalSize).toNat events
    (fun e he => (hwf e he).1)
  have hsum : Finset.sum (Finset.range (initTotalChunks totalSize).toNat)
      (fun i => rangeLen totalSize (initChunkSize totalSize) (i : Int)) = totalSize := by
    have := sum_rangeLen totalSize (initChunkSize totalSize) (by omega) hc
    simpa [initTotalChunks] using this
  have htotal : counterAfter events ≤ totalSize := by
    rw [counterAfter_eq_sum, hgroup]
    exact le_trans
      (Finset.sum_le_sum (fun i hi => hbound i (Finset.mem_range.mp hi)))
      (le_of_eq hsum)
  have hpre : ∀ k : Nat, counterAfter (events.take k) ≤ counterAfter events := by
    intro k
    rw [counterAfter_eq_sum, counterAfter_eq_sum]
    conv_rhs => rw [← List.take_append_drop k events]
    rw [List.map_append, List.sum_append]
    have : 0 ≤ ((events.drop k).map eventDelta).sum := by
      apply List.sum_nonneg
      intro x hx
      obtain ⟨e, he, rfl⟩ := List.mem_map.mp hx
      exact eventDelta_nonneg e (hwf e (List.drop_subset k events he)).2
    omega
  refine ⟨?_, fun k => le_trans (hpre k) htotal, ?_⟩
  · intro k
    rw [counterAfter_eq_sum, counterAfter_eq_sum, List.take_succ,
      List.map_append, List.sum_append]
    have : 0 ≤ ((events[k]?).toList.map eventDelta).sum := by
      cases hg : events[k]? with
      | none => simp
      | some e =>
        have he : e ∈ events :=
          List.get?_mem (by rw [List.get?_eq_getElem?]; exact hg)
        simp [eventDelta_nonneg e (hwf e he).2]
    omega
  · intro hexact
    rw [counterAfter_eq_sum, hgroup]
    exact (Finset.sum_congr rfl
      (fun i hi => hexact i (Finset.mem_range.mp hi))).trans hsum

/-- Witness for C3 at `totalSize = 2^20 + 1`: two chunks (1 MiB and one
byte), one successful full write each, final counter exactly the size. -/
theorem bytesWritten_monotone_bounded_witness :
    counterAfter [WriteEvent.mk 0 1048576 false, WriteEvent.mk 1 1 false] = 1048577 :=
  (bytesWritten_monotone_bounded 1048577
    [WriteEvent.mk 0 1048576 false, WriteEvent.mk 1 1 false]
    (by decide) (by decide) (by decide)).2.2 (by decide)

/-! ## C6 — VerifyFile -/

/-- Each character `hexDigit` produces for a nibble is a decimal digit or
a lowercase letter between `a` and `f`. -/
theorem hexDigit_lower : ∀ n, n < 16 →
    (hexDigit n).isDigit = true ∨ ('a' ≤ hexDigit n ∧ hexDigit n ≤ 'f') := by
  decide

/-- The hex encoding is made of lowercase hex characters only. -/
theorem hexEncode_lower (bs : List Nat) :
    ∀ ch ∈ hexEncode bs, ch.isDigit = true ∨ ('a' ≤ ch ∧ ch ≤ 'f') := by
  intro ch hch
  unfold hexEncode at hch
  rw [List.mem_flatten] at hch
  obtain ⟨l, hl, hchl⟩ := hch
  rw [List.mem_map] at hl
  obtain ⟨b, _, rfl⟩ := hl
  have h1 : b % 256 / 16 < 16 := by omega
  have h2 : b % 16 < 16 := by omega
  rcases List.mem_cons.mp hchl with h | h
  · rw [h]; exact hexDigit_lower _ h1
  · rcases List.mem_cons.mp h with h | h
    · rw [h]; exact hexDigit_lower _ h2
    · exact absurd h (List.not_mem_nil ch)

/-- C6: VerifyFile succeeds exactly when the file could be opened and read
and the lowercase-hex encoding of the selected digest of its full contents
equals the expected string; an unreadable file yields the I/O failure; an
inequality yields the mismatch error carrying the expected and the
computed digest; and the computed encoding is lowercase hexadecimal. -/
theorem verifyFile_spec (fileContents : Option (List Nat))
    (expectedHash : List Char) (algoInfo : ChecksumAlgo) :
    (VerifyFile fileContents expectedHash algoInfo = VerifyResult.ok ↔
      ∃ data, fileContents = some data ∧
        hexEncode (algoInfo.NewHash data) = expectedHash) ∧
    (fileContents = none →
      VerifyFile fileContents expectedHash algoInfo = VerifyResult.ioFailure) ∧
    (∀ data, fileContents = some data →
      hexEncode (algoInfo.NewHash data) ≠ expectedHash →
      VerifyFile fileContents expectedHash algoInfo =
        VerifyResult.mismatch expectedHash (hexEncode (algoInfo.NewHash data))) ∧
    (∀ bs, ∀ ch ∈ hexEncode bs, ch.isDigit = true ∨ ('a' ≤ ch ∧ ch ≤ 'f')) := by
  refine ⟨?_, ?_, ?_, fun bs => hexEncode_lower bs⟩
  · cases fileContents with
    | none => simp [VerifyFile]
    | some data =>
      by_cases h : hexEncode (algoInfo.NewHash data) = expectedHash
      · simp [VerifyFile, h]
      · simp [VerifyFile, h]
  · intro h
    subst h
    rfl
  · intro data h hne
    subst h
    simp [VerifyFile, hne]

/-- Witness for C6: an unreadable file produces the I/O failure. -/
theorem verifyFile_spec_witness :
    VerifyFile none (['a'] : List Char) (ChecksumAlgo.mk 2 id) =
      VerifyResult.ioFailure :=
  (verifyFile_spec none ['a'] (ChecksumAlgo.mk 2 id)).2.1 rfl

/-! ## C7 — checksum validation does not stop the launch -/

/-- C7 (code bug): the `SupportedChecksum` table accepts exactly the hex
lengths md5:32, sha1:40, sha256:64, sha384:96, sha512:128 — but a failed
validation does not stop the program.  At algorithm `md5` with the
3-character hash `abc`, one `ErrorMsg` is sent, the checksum is configured
anyway, and the download goroutine is still launched; the unsupported
algorithm `blake3` sends two `ErrorMsg`s and likewise launches. -/
theorem checksum_validation_still_launches :
    (∀ algo n, SupportedChecksumLen algo = some n ↔
      ((algo = ['m', 'd', '5'] ∧ n = 32) ∨
       (algo = ['s', 'h', 'a', '1'] ∧ n = 40) ∨
       (algo = ['s', 'h', 'a', '2', '5', '6'] ∧ n = 64) ∨
       (algo = ['s', 'h', 'a', '3', '8', '4'] ∧ n = 96) ∨
       (algo = ['s', 'h', 'a', '5', '1', '2'] ∧ n = 128))) ∧
    mainChecksumPhase ['m', 'd', '5'] ['a', 'b', 'c'] = CliRun.mk 1 true true ∧
    mainChecksumPhase ['b', 'l', 'a', 'k', 'e', '3'] ['a', 'b'] =
      CliRun.mk 2 true true := by
  refine ⟨?_, by decide, by decide⟩
  intro algo n
  unfold SupportedChecksumLen
  split_ifs with h1 h2 h3 h4 h5 <;> simp_all <;> omega

/-! ## C9 — trace directory naming -/

/-- LastIndex reports −1 exactly when the string has no dot. -/
theorem lastDotIndex_neg (s : List Char) : lastDotIndex s < 0 ↔ '.' ∉ s := by
  induction s with
  | nil => simp [lastDotIndex]
  | cons c cs ih =>
    unfold lastDotIndex
    dsimp only
    by_cases h : 0 ≤ lastDotIndex cs
    · rw [if_pos h]
      have hmem : '.' ∈ cs := by
        by_contra hmem
        exact absurd (ih.mpr hmem) (by omega)
      constructor
      · intro hlt
        exact absurd hlt (by omega)
      · intro hnot
        exact absurd (List.mem_cons_of_mem c hmem) hnot
    · rw [if_neg h]
      by_cases hc : c = '.'
      · rw [if_pos hc]
        simp [hc]
      · rw [if_neg hc]
        have h2 : '.' ∉ cs := ih.mp (by omega)
        simp [List.mem_cons, h2]
        exact fun he => hc he.symm

/-- Structure of the derived directory name: it is a prefix of the
filename whose remainder holds no dot; it is empty or ends with a dot; and
it is non-empty whenever the filename has a dot — that is, it is the
prefix up to and including the last dot. -/
theorem dirNameOf_spec (s : List Char) :
    (∃ rest, s = dirNameOf s ++ rest ∧ '.' ∉ rest) ∧
    (dirNameOf s = [] ∨ ∃ d, dirNameOf s = d ++ ['.']) ∧
    ('.' ∈ s → dirNameOf s ≠ []) := by
  induction s with
  | nil =>
    exact ⟨⟨[], by simp [dirNameOf, lastDotIndex], by simp⟩,
      Or.inl (by simp [dirNameOf, lastDotIndex]), by simp⟩
  | cons c cs ih =>
    by_cases h : 0 ≤ lastDotIndex cs
    · have hL : lastDotIndex (c :: cs) = lastDotIndex cs + 1 := by
        simp only [lastDotIndex]
        rw [if_pos h]
      have hD : dirNameOf (c :: cs) = c :: dirNameOf cs := by
        unfold dirNameOf
        rw [hL,
          show (lastDotIndex cs + 1 + 1).toNat = (lastDotIndex cs + 1).toNat + 1
            by omega,
          List.take_succ_cons]
      have hmem : '.' ∈ cs := by
        by_contra hmem
        exact absurd ((lastDotIndex_neg cs).mpr hmem) (by omega)
      obtain ⟨⟨rest, hrest, hnd⟩, hend, hne⟩ := ih
      refine ⟨⟨rest, by rw [hD, List.cons_append, ← hrest], hnd⟩, ?_, ?_⟩
      · rcases hend with he | ⟨d, hd⟩
        · exact absurd he (hne hmem)
        · exact Or.inr ⟨c :: d, by rw [hD, hd, List.cons_append]⟩
      · intro _
        rw [hD]
        simp
    · have hnotcs : '.' ∉ cs := (lastDotIndex_neg cs).mp (by omega)
      by_cases hc : c = '.'
      · have hL : lastDotIndex (c :: cs) = 0 := by
          unfold lastDotIndex
          dsimp only
          rw [if_neg h, if_pos hc]
        have hD : dirNameOf (c :: cs) = [c] := by
          unfold dirNameOf
          rw [hL]
          simp
        refine ⟨⟨cs, by rw [hD]; simp, hnotcs⟩,
          Or.inr ⟨[], by rw [hD, hc]; simp⟩, ?_⟩
        intro _
        rw [hD]
        simp
      · have hL : lastDotIndex (c :: cs) = -1 := by
          unfold lastDotIndex
          dsimp only
          rw [if_neg h, if_neg hc]
        have hD : dirNameOf (c :: cs) = [] := by
          unfold dirNameOf
          rw [hL]
          simp
        refine ⟨⟨c :: cs, by rw [hD]; simp, ?_⟩, Or.inl hD, ?_⟩
        · simp [List.mem_cons, hnotcs]
          exact fun he => hc he.symm
        · intro hmem
          rcases List.mem_cons.mp hmem with he | he
          · exact absurd he.symm hc
          · exact absurd he hnotcs

/-- C9 counterexample: for the output filename `a.bin` the code derives
the directory name `a.` — the dot is kept — and not the basename without
extension `a`; with tracing enabled, engine construction creates `a.`. -/
theorem dirName_not_basename_counterexample :
    dirNameOf ['a', '.', 'b', 'i', 'n'] ≠
      basenameWithoutExt ['a', '.', 'b', 'i', 'n'] ∧
    (initPaths ['a', '.', 'b', 'i', 'n'] true false).1 = ['a', '.'] := by
  decide

/-- C9 amended: when trace or telemetry is enabled, the created directory
is named by the prefix of the output filename up to AND INCLUDING the last
dot — empty when the filename has no dot — and the output file is placed
inside that directory. -/
theorem initPaths_spec (filename : List Char)
    (enableTrace enableTelemetry : Bool)
    (h : (enableTrace || enableTelemetry) = true) :
    (initPaths filename enableTrace enableTelemetry).2 =
      (initPaths filename enableTrace enableTelemetry).1 ++ '/' :: filename ∧
    (∃ rest,
      filename = (initPaths filename enableTrace enableTelemetry).1 ++ rest ∧
      '.' ∉ rest) ∧
    ((initPaths filename enableTrace enableTelemetry).1 = [] ∨
      ∃ d, (initPaths filename enableTrace enableTelemetry).1 = d ++ ['.']) ∧
    ('.' ∈ filename →
      (initPaths filename enableTrace enableTelemetry).1 ≠ []) := by
  have hI : initPaths filename enableTrace enableTelemetry =
      (dirNameOf filename, dirNameOf filename ++ '/' :: filename) := by
    unfold initPaths
    rw [if_pos h]
  rw [hI]
  exact ⟨rfl, (dirNameOf_spec filename).1, (dirNameOf_spec filename).2.1,
    (dirNameOf_spec filename).2.2⟩

/-- Witness for C9's amended claim at the filename `a.b` with tracing
enabled. -/
theorem initPaths_spec_witness :
    (initPaths ['a', '.', 'b'] true false).2 =
      (initPaths ['a', '.', 'b'] true false).1 ++ '/' :: ['a', '.', 'b'] :=
  (initPaths_spec ['a', '.', 'b'] true false (by decide)).1

end Downpour
